import Mathlib

/-!
# Verification of the `cfd-status` progress model

Shallow embedding of `src/lib.rs` of the `cfd-status` repository.

Modelling conventions:
* Rust `f64` values are modelled exactly as `ℚ` (the arithmetic performed by
  the program — sums, one division per update, one multiplication for the ETA —
  is exact real arithmetic in the specification's reading, which speaks of
  mathematical equality "within floating-point tolerance").
* Rust `usize` is modelled as `ℕ`; the unchecked subtractions
  (`time_step - self.step.unwrap_or(time_step)` in `Case::update` and
  `self.duration * RATE - self.step.unwrap()` in `Case::eta_secs`) are
  modelled with explicit underflow checks: an underflow is a Rust arithmetic
  error (a panic under checked arithmetic), rendered here as the
  `Outcome.panic` result of `Case.update` and as `none` for `Case.eta_secs`.
* The regex `TimeStep\s+(\d+): Time\s+(\d+\.\d+e[+-]?\d+)` is embedded as a
  deterministic maximal-munch matcher over `List Char`.  For this particular
  pattern maximal munch coincides with the regex engine's leftmost match
  semantics: every repeated class (`\s+`, `\d+`) is followed by a literal or a
  class disjoint from it, so no backtracking into a repetition can ever
  succeed.  `\s` is modelled by the ASCII whitespace characters.
-/

namespace CfdStatus

/- Batteries marks the `Rat` field operations `@[irreducible]`; re-allow
unfolding them so that concrete rational arithmetic can be settled by
`decide`. -/
attribute [local semireducible] Rat.add Rat.mul Rat.inv Rat.sub Rat.ofScientific

/-- Constant `UPDATE_TIME` (src/lib.rs line 15): seconds between two status updates. -/
def UPDATE_TIME : ℕ := 180

/-- Constant `RATE` (src/lib.rs line 19): simulation sampling rate in Hz. -/
def RATE : ℕ := 20

/-- Structure `ElapsedPerStep` (src/lib.rs lines 22-26): running mean of the elapsed
time per simulation time step.  `value : f64` is modelled as `ℚ`,
`sample : usize` as `ℕ`. -/
structure ElapsedPerStep where
  value : ℚ
  sample : ℕ
deriving DecidableEq, Repr

/-- Constructor `ElapsedPerStep::new` (src/lib.rs lines 30-32): `Default::default()`,
i.e. value `0.0` and sample count `0`. -/
def ElapsedPerStep.new : ElapsedPerStep := ⟨0, 0⟩

/-- Method `ElapsedPerStep::update` (src/lib.rs lines 34-39):
`n = sample as f64; sample += 1; value = (value * n + v) / sample as f64`. -/
def ElapsedPerStep.update (s : ElapsedPerStep) (v : ℚ) : ElapsedPerStep :=
  { value := (s.value * (s.sample : ℚ) + v) / ((s.sample : ℚ) + 1)
    sample := s.sample + 1 }

/-- Feeding a whole list of samples, one `update` at a time, starting from
`ElapsedPerStep.new`. -/
def ElapsedPerStep.run (l : List ℚ) : ElapsedPerStep :=
  l.foldl ElapsedPerStep.update ElapsedPerStep.new

theorem ElapsedPerStep.foldl_sample (l : List ℚ) :
    ∀ s : ElapsedPerStep, (l.foldl ElapsedPerStep.update s).sample = s.sample + l.length := by
  induction l with
  | nil => intro s; simp
  | cons v t ih =>
    intro s
    rw [List.foldl_cons, ih (s.update v)]
    simp only [ElapsedPerStep.update, List.length_cons]
    omega

theorem ElapsedPerStep.foldl_value_mul (l : List ℚ) :
    ∀ s : ElapsedPerStep,
      (l.foldl ElapsedPerStep.update s).value
          * (((l.foldl ElapsedPerStep.update s).sample : ℕ) : ℚ)
        = s.value * (s.sample : ℚ) + l.sum := by
  induction l with
  | nil => intro s; simp
  | cons v t ih =>
    intro s
    have hupd : (s.update v).value * (((s.update v).sample : ℕ) : ℚ)
        = s.value * (s.sample : ℚ) + v := by
      have hne : ((s.sample : ℚ) + 1) ≠ 0 := by positivity
      simp only [ElapsedPerStep.update, Nat.cast_add, Nat.cast_one]
      exact div_mul_cancel₀ _ hne
    calc (t.foldl ElapsedPerStep.update (s.update v)).value
            * (((t.foldl ElapsedPerStep.update (s.update v)).sample : ℕ) : ℚ)
        = (s.update v).value * (((s.update v).sample : ℕ) : ℚ) + t.sum := ih (s.update v)
      _ = s.value * (s.sample : ℚ) + (v + t.sum) := by rw [hupd]; ring
      _ = s.value * (s.sample : ℚ) + (v :: t).sum := by rw [List.sum_cons]

theorem ElapsedPerStep.run_sample (l : List ℚ) :
    (ElapsedPerStep.run l).sample = l.length := by
  simp [ElapsedPerStep.run, ElapsedPerStep.foldl_sample, ElapsedPerStep.new]

theorem ElapsedPerStep.run_value (l : List ℚ) :
    (ElapsedPerStep.run l).value = l.sum / l.length := by
  rcases l with _ | ⟨v, t⟩
  · simp [ElapsedPerStep.run, ElapsedPerStep.new]
  · have hlen : (((v :: t).length : ℕ) : ℚ) ≠ 0 := by
      rw [Nat.cast_ne_zero]
      simp
    have hmul := ElapsedPerStep.foldl_value_mul (v :: t) ElapsedPerStep.new
    rw [show List.foldl ElapsedPerStep.update ElapsedPerStep.new (v :: t)
          = ElapsedPerStep.run (v :: t) from rfl,
        ElapsedPerStep.run_sample] at hmul
    rw [eq_div_iff hlen]
    simpa [ElapsedPerStep.new] using hmul

/-! ## Embedding of the observation pattern

The pattern of `Case::update` (src/lib.rs line 108):
`TimeStep\s+(\d+): Time\s+(\d+\.\d+e[+-]?\d+)`. -/

/-- ASCII whitespace, the characters matched by the pattern's `\s`. -/
def isWsChar (c : Char) : Bool :=
  c = ' ' || c = '\t' || c = '\n' || c = '\x0B' || c = '\x0C' || c = '\r'

/-- The literal token `TimeStep` of the pattern. -/
def timeStepTok : List Char := ['T', 'i', 'm', 'e', 'S', 't', 'e', 'p']

/-- The literal token `: Time` of the pattern (a colon, exactly one space,
then `Time`). -/
def colonTimeTok : List Char := [':', ' ', 'T', 'i', 'm', 'e']

/-- Match a literal token at the front of the input, returning the rest. -/
def lit : List Char → List Char → Option (List Char)
  | [], s => some s
  | _ :: _, [] => none
  | p :: ps, c :: cs => if c = p then lit ps cs else none

/-- Pattern piece `\s+`: one or more whitespace characters, maximal munch. -/
def wsRun : List Char → Option (List Char)
  | [] => none
  | c :: t => if isWsChar c then some (t.dropWhile isWsChar) else none

/-- Pattern piece `(\d+)`: one or more decimal digits, maximal munch; returns the digits
and the rest. -/
def digitRun : List Char → Option (List Char × List Char)
  | [] => none
  | c :: t =>
    if c.isDigit then some (c :: t.takeWhile Char.isDigit, t.dropWhile Char.isDigit)
    else none

/-- The four digit groups of a scientific-notation literal
`digits . digits e [+|-]? digits`:  integer part, fractional part, exponent
sign (as a possibly empty token) and exponent digits. -/
structure SciParts where
  intPart : List Char
  fracPart : List Char
  signPart : List Char
  expPart : List Char
deriving DecidableEq, Repr

/-- The text a `SciParts` decomposition stands for. -/
def SciParts.text (p : SciParts) : List Char :=
  p.intPart ++ '.' :: p.fracPart ++ 'e' :: (p.signPart ++ p.expPart)

/-- The numeric value of a digit string, `digits` read in base 10
(the value `usize`/`f64` parsing extracts from a digit run). -/
def natOfDigitRun (l : List Char) : ℕ :=
  Nat.ofDigits 10 ((l.map fun c => c.toNat - '0'.toNat).reverse)

/-- The rational value of a scientific-notation literal, the exact value
`f64` parsing approximates: `intPart.fracPart × 10^(±expPart)`. -/
def SciParts.val (p : SciParts) : ℚ :=
  let m : ℚ := (natOfDigitRun p.intPart : ℚ)
    + (natOfDigitRun p.fracPart : ℚ) / 10 ^ p.fracPart.length
  let e : ℕ := natOfDigitRun p.expPart
  if p.signPart = ['-'] then m / 10 ^ e else m * 10 ^ e

/-- Match one expected literal character at the front of the input. -/
def headIs (ch : Char) : List Char → Option (List Char)
  | [] => none
  | c :: t => if c = ch then some t else none

/-- Pattern piece `[+-]?`: take an optional leading sign, returning it as a token (empty
when absent) together with the rest. -/
def signSplit : List Char → List Char × List Char
  | [] => ([], [])
  | c :: t => if c = '+' || c = '-' then ([c], t) else ([], c :: t)

/-- Pattern piece `\d+\.\d+e[+-]?\d+` decomposed at the front of the input, maximal munch:
the four digit groups and the unconsumed rest.  The optional sign needs no
backtracking: when a sign is present but not followed by a digit, the
alternative of not consuming the sign fails as well, since the sign character
is not a digit. -/
def sciSplit (s : List Char) : Option (SciParts × List Char) :=
  (digitRun s).bind fun d1r =>
  (headIs '.' d1r.2).bind fun r2 =>
  (digitRun r2).bind fun d2r =>
  (headIs 'e' d2r.2).bind fun r4 =>
  (digitRun (signSplit r4).2).bind fun d3r =>
  some (⟨d1r.1, d2r.1, (signSplit r4).1, d3r.1⟩, d3r.2)

/-- The second capture group as text: the whole scientific-notation literal. -/
def sciRun (s : List Char) : Option (List Char × List Char) :=
  match sciSplit s with
  | none => none
  | some (p, r) => some (p.text, r)

/-- One attempt to match the whole pattern at the current position; on
success returns the two capture groups (step digits, time literal). -/
def matchAt (s : List Char) : Option (List Char × List Char) :=
  (lit timeStepTok s).bind fun r1 =>
  (wsRun r1).bind fun r2 =>
  (digitRun r2).bind fun g1r =>
  (lit colonTimeTok g1r.2).bind fun r4 =>
  (wsRun r4).bind fun r5 =>
  (sciRun r5).map fun g2r => (g1r.1, g2r.1)

/-- Model of `Regex::captures`: the leftmost match of the pattern in the input,
returning the two capture groups. -/
def findCaptures : List Char → Option (List Char × List Char)
  | [] => none
  | c :: t =>
    match matchAt (c :: t) with
    | some r => some r
    | none => findCaptures t

/-- Model of `str::parse::<usize>` restricted to the strings the first capture group
can produce: a non-empty run of decimal digits parses to its value (`ℕ`, so
the `usize` overflow failure of the real parser cannot occur in the model). -/
def parseNatStr (l : List Char) : Option ℕ :=
  if l ≠ [] ∧ l.all Char.isDigit then some (natOfDigitRun l) else none

/-- Model of `str::parse::<f64>` restricted to the strings the second capture group
can produce: a full `digits.digits e [+|-]? digits` literal parses to its
exact rational value; anything else is rejected. -/
def parseRatSci (l : List Char) : Option ℚ :=
  match sciSplit l with
  | some (p, []) => some p.val
  | _ => none

/-- Error enum `CaseError` (src/lib.rs lines 67-81).  `Command` and `UTF8` wrap I/O
failures that the pure model does not produce. -/
inductive CaseError where
  | Command
  | UTF8
  | ParseFloat
  | ParseInt
  | Regex
  | Grep
deriving DecidableEq, Repr

instance {e a : Type} [DecidableEq e] [DecidableEq a] : DecidableEq (Except e a)
  | .error x, .error y =>
    if h : x = y then .isTrue (by rw [h]) else .isFalse (by simp [h])
  | .error _, .ok _ => .isFalse (by simp)
  | .ok _, .error _ => .isFalse (by simp)
  | .ok x, .ok y =>
    if h : x = y then .isTrue (by rw [h]) else .isFalse (by simp [h])

/-- Lift an optional value into `Result`, tagging a missing value with the
error the corresponding `?` operator would propagate. -/
def ofOpt {α : Type} (e : CaseError) : Option α → Except CaseError α
  | none => .error e
  | some a => .ok a

/-- Lines 125-131 of src/lib.rs: match the pattern against the input and
parse the two captured groups, `?`-propagating each failure. -/
def extractObs (s : List Char) : Except CaseError (ℕ × ℚ) :=
  (ofOpt .Regex (findCaptures s)).bind fun g =>
  (ofOpt .ParseInt (parseNatStr g.1)).bind fun ts =>
  (ofOpt .ParseFloat (parseRatSci g.2)).bind fun tv =>
  .ok (ts, tv)

/-! ## Embedding of `Case` -/

/-- Structure `Case` (src/lib.rs lines 57-65). -/
structure Case where
  name : String
  duration : ℕ
  log : String
  step : Option ℕ
  time : ℚ
  elapsed_per_step : ElapsedPerStep
deriving DecidableEq, Repr

/-- Constructor `Case::new` (src/lib.rs lines 87-94): the remaining fields take their
`Default` values (`step = None`, `time = 0.0`, empty average). -/
def Case.new (name : String) (duration : ℕ) (log : String) : Case :=
  { name := name, duration := duration, log := log
    step := none, time := 0, elapsed_per_step := ElapsedPerStep.new }

/-- Result of one `Case::update` call: `ok` for `Ok(self)`, `err e` for
`Err(e)`, and `panic` for the unchecked `usize` underflow of
`time_step - self.step.unwrap_or(time_step)` (src/lib.rs line 133), which
is an arithmetic error, not a `CaseError`. -/
inductive Outcome where
  | ok
  | err (e : CaseError)
  | panic
deriving DecidableEq, Repr

/-- Method `Case::update` (src/lib.rs lines 107-148) on the text produced by the
`grep TimeStep <log>| tail -n1` pipeline; `none` stands for a failed
pipeline (`!output.status.success()`).  Returns the case as left by the call
(the code mutates `self` only after both captures have parsed) together with
the call's outcome. -/
def Case.update (c : Case) (out : Option (List Char)) : Case × Outcome :=
  match out with
  | none => (c, .err .Grep)
  | some s =>
    match extractObs s with
    | .error e => (c, .err e)
    | .ok (ts, tv) =>
      let prev := c.step.getD ts
      if ts < prev then (c, .panic)
      else
        let diff := ts - prev
        let c1 : Case := { c with step := some ts, time := tv }
        if 0 < diff then
          ({ c1 with elapsed_per_step :=
              c1.elapsed_per_step.update ((UPDATE_TIME : ℚ) / (diff : ℚ)) }, .ok)
        else (c1, .ok)

/-- Truncation toward zero, the behaviour of Rust's `as i64` cast on a
finite `f64` (src/lib.rs line 152). -/
def ratTrunc (q : ℚ) : ℤ := if 0 ≤ q then ⌊q⌋ else ⌈q⌉

/-- Method `Case::eta_secs` (src/lib.rs lines 150-153):
`n_step = duration * RATE - step.unwrap()`, then the mean times `n_step`,
cast to `i64`.  `none` stands for the two panics: `unwrap` on an unset step
and the unchecked `usize` underflow of the subtraction. -/
def Case.eta_secs (c : Case) : Option ℤ :=
  match c.step with
  | none => none
  | some s =>
    if c.duration * RATE < s then none
    else some (ratTrunc (c.elapsed_per_step.value * ((c.duration * RATE - s : ℕ) : ℚ)))

/-- Function `estimatedSecondsRemaining` as the specification words it
(`returns round(progress.value() * remainingSteps)`), for comparison with
`Case.eta_secs`; `round` rounds to the nearest integer. -/
def Case.etaSecsSpecRound (c : Case) : Option ℤ :=
  match c.step with
  | none => none
  | some s =>
    if c.duration * RATE < s then none
    else some (round (c.elapsed_per_step.value * ((c.duration * RATE - s : ℕ) : ℚ)))

/-! ## Reduction lemmas for `Case.update` and `Case.eta_secs` -/

theorem Case.update_none_eq (c : Case) : c.update none = (c, .err .Grep) := rfl

theorem Case.update_some_err (c : Case) (s : List Char) (e : CaseError)
    (h : extractObs s = .error e) : c.update (some s) = (c, .err e) := by
  simp only [Case.update, h]

theorem Case.update_some_ok (c : Case) (s : List Char) (ts : ℕ) (tv : ℚ)
    (h : extractObs s = .ok (ts, tv)) :
    c.update (some s) =
      if ts < c.step.getD ts then (c, .panic)
      else if 0 < ts - c.step.getD ts then
        ({ c with
            step := some ts
            time := tv
            elapsed_per_step := c.elapsed_per_step.update
              ((UPDATE_TIME : ℚ) / ((ts - c.step.getD ts : ℕ) : ℚ)) }, .ok)
      else ({ c with step := some ts, time := tv }, .ok) := by
  simp only [Case.update, h]

theorem Case.eta_secs_some (c : Case) (s : ℕ) (hs : c.step = some s) :
    c.eta_secs = if c.duration * RATE < s then none
      else some (ratTrunc (c.elapsed_per_step.value * ((c.duration * RATE - s : ℕ) : ℚ))) := by
  simp only [Case.eta_secs, hs]

/-! ## The claims about `Case.update` and `Case.eta_secs` -/

/-- C2 counterexample.  `eta_secs` does not round to the nearest integer:
with mean seconds-per-step `1.9`, `targetDurationUnits = 1` and
`currentStep = 19` there is exactly one remaining step, the code truncates
`1.9` to `1` while `round(1.9) = 2`. -/
theorem c2_counterexample :
    Case.eta_secs { Case.new "x" 1 "l" with step := some 19, elapsed_per_step := ⟨19/10, 1⟩ }
      ≠ Case.etaSecsSpecRound
          { Case.new "x" 1 "l" with step := some 19, elapsed_per_step := ⟨19/10, 1⟩ } := by
  decide

/-- C2 as amended.  For every case whose `currentStep` is set, at most
`targetDurationUnits * RATE`, and whose mean is nonnegative,
`eta_secs` equals the floor (truncation toward zero) of
`progress.value() * remainingSteps` with
`remainingSteps = targetDurationUnits * RATE - currentStep`. -/
theorem c2_eta_trunc (c : Case) (s : ℕ) (hs : c.step = some s)
    (hle : s ≤ c.duration * RATE) (hv : 0 ≤ c.elapsed_per_step.value) :
    c.eta_secs = some ⌊c.elapsed_per_step.value * ((c.duration * RATE - s : ℕ) : ℚ)⌋ := by
  rw [Case.eta_secs_some c s hs, if_neg (by omega)]
  unfold ratTrunc
  rw [if_pos (mul_nonneg hv (by positivity))]

/-- Witness for C2 as amended: the specification's own example,
`targetDurationUnits = 10`, `currentStep = 100`, mean `2.0`, gives
`eta_secs = 200`. -/
theorem c2_eta_trunc_witness :
    Case.eta_secs { Case.new "x" 10 "l" with step := some 100, elapsed_per_step := ⟨2, 1⟩ }
      = some 200 := by
  rw [c2_eta_trunc _ 100 rfl (by decide) (by decide)]
  decide

/-- C3.  On a successful refresh of a case whose previous step `p` is set:
if the new step `ts` exceeds `p`, exactly one sample
`UPDATE_TIME / (ts - p)` is folded into the running average; if `ts = p`,
the running average (mean and sample count) is left untouched. -/
theorem c3_step_delta (c : Case) (s : List Char) (p ts : ℕ) (tv : ℚ)
    (hstep : c.step = some p) (hobs : extractObs s = .ok (ts, tv)) :
    (p < ts → c.update (some s) =
        ({ c with
            step := some ts
            time := tv
            elapsed_per_step := c.elapsed_per_step.update
              ((UPDATE_TIME : ℚ) / ((ts - p : ℕ) : ℚ)) }, .ok)) ∧
      (ts = p → c.update (some s) = ({ c with step := some ts, time := tv }, .ok)) := by
  rw [Case.update_some_ok c s ts tv hobs, hstep]
  simp only [Option.getD_some]
  constructor
  · intro hlt
    rw [if_neg (by omega), if_pos (by omega)]
  · intro heq
    subst heq
    rw [if_neg (by omega), if_neg (by omega)]

/-- Witness for C3: the specification's example, previous step `10`, new
step `15`, polling interval `180`: the single sample `180/5 = 36` is folded
in; and a repeat of step `15` leaves the average untouched. -/
theorem c3_step_delta_witness :
    ({ Case.new "a" 900 "l" with step := some 10 } : Case).update
        (some "TimeStep 15: Time 1.0e+00".toList)
      = ({ Case.new "a" 900 "l" with
            step := some 15
            time := 1
            elapsed_per_step := ⟨36, 1⟩ }, Outcome.ok) := by
  rw [(c3_step_delta _ _ 10 15 1 rfl (by decide)).1 (by decide)]
  decide

/-- C4.  The first successful refresh on a freshly created case
(`currentStep = None`) stores the observed step and simulated time but
leaves the running average untouched, whatever step number is observed. -/
theorem c4_first_refresh (c : Case) (s : List Char) (ts : ℕ) (tv : ℚ)
    (hstep : c.step = none) (hobs : extractObs s = .ok (ts, tv)) :
    c.update (some s) = ({ c with step := some ts, time := tv }, .ok) := by
  rw [Case.update_some_ok c s ts tv hobs, hstep]
  simp only [Option.getD_none]
  rw [if_neg (by omega), if_neg (by omega)]

/-- Witness for C4: a fresh case refreshed on the line
`TimeStep   42: Time   1.2345e+02` gets step `42` and time `123.45` while
its running average stays at zero samples. -/
theorem c4_first_refresh_witness :
    (Case.new "a" 900 "l").update (some "TimeStep   42: Time   1.2345e+02".toList)
      = ({ Case.new "a" 900 "l" with step := some 42, time := 2469/20 }, Outcome.ok) :=
  c4_first_refresh _ _ 42 (2469/20) rfl (by decide)

/-- C6 counterexample.  On the observation line with the malformed number
`12.xe+02` the refresh fails with the pattern-mismatch error
(`CaseError::Regex`), not with a parse error: `x` is not a digit, so the
pattern itself never matches. -/
theorem c6_counterexample :
    (Case.new "a" 900 "l").update (some "TimeStep 42: Time 12.xe+02".toList)
      = (Case.new "a" 900 "l", Outcome.err CaseError.Regex) ∧
      Outcome.err CaseError.Regex ≠ Outcome.err CaseError.ParseInt ∧
      Outcome.err CaseError.Regex ≠ Outcome.err CaseError.ParseFloat := by
  decide

/-- C6 as amended.  For every case, a refresh on the line
`TimeStep 42: Time 12.xe+02` (the `TimeStep` keyword present but the number
malformed) fails with `CaseError::Regex` — the pattern-mismatch error — and
leaves the case unchanged. -/
theorem c6_malformed_number_regex (c : Case) :
    c.update (some "TimeStep 42: Time 12.xe+02".toList)
      = (c, Outcome.err CaseError.Regex) :=
  Case.update_some_err c _ CaseError.Regex (by decide)

/-- C7 counterexample.  With stored step `10` and a parsed step `5`, the
refresh does not produce `CaseError::ParseInt` (nor any `CaseError`): the
unchecked `usize` subtraction `5 - 10` underflows, an arithmetic error
(`Outcome.panic`), before any field is written. -/
theorem c7_counterexample :
    ({ Case.new "a" 900 "l" with step := some 10 } : Case).update
        (some "TimeStep 5: Time 1.0e+00".toList)
      ≠ ({ Case.new "a" 900 "l" with step := some 10 }, Outcome.err CaseError.ParseInt) ∧
      ({ Case.new "a" 900 "l" with step := some 10 } : Case).update
          (some "TimeStep 5: Time 1.0e+00".toList)
        = ({ Case.new "a" 900 "l" with step := some 10 }, Outcome.panic) := by
  decide

/-- C7 as amended.  Whenever the newly parsed step is strictly smaller than
the stored step, the subtraction `time_step - self.step.unwrap_or(..)`
underflows: the refresh neither completes nor returns a `CaseError`; it is
an arithmetic error (a panic under checked arithmetic), with the case left
as it was. -/
theorem c7_step_decrease_panics (c : Case) (s : List Char) (p ts : ℕ) (tv : ℚ)
    (hstep : c.step = some p) (hobs : extractObs s = .ok (ts, tv)) (hlt : ts < p) :
    c.update (some s) = (c, .panic) := by
  rw [Case.update_some_ok c s ts tv hobs, hstep]
  simp only [Option.getD_some]
  rw [if_pos hlt]

/-- Witness for C7 as amended: stored step `10`, observed step `5`. -/
theorem c7_step_decrease_panics_witness :
    ({ Case.new "a" 900 "l" with step := some 10 } : Case).update
        (some "TimeStep 5: Time 1.0e+00".toList)
      = ({ Case.new "a" 900 "l" with step := some 10 }, Outcome.panic) :=
  c7_step_decrease_panics _ _ 10 5 1 rfl (by decide) (by decide)

/-- C9.  `Case::update` is atomic on failure: whenever it returns an error
(`Grep`, `Regex`, or a parse error), the case is exactly as it was before
the call — every field write happens only after the pattern has matched and
both numbers have parsed. -/
theorem c9_error_atomicity (c : Case) (out : Option (List Char)) (e : CaseError)
    (h : (c.update out).2 = .err e) : (c.update out).1 = c := by
  rcases out with _ | s
  · rfl
  · rcases hobs : extractObs s with e' | ⟨ts, tv⟩
    · rw [Case.update_some_err c s e' hobs]
    · rw [Case.update_some_ok c s ts tv hobs] at h
      exfalso
      split_ifs at h

/-- Witness for C9: a failed pipeline (`Grep` error) leaves the case
unchanged. -/
theorem c9_error_atomicity_witness :
    ((Case.new "a" 900 "l").update none).1 = Case.new "a" 900 "l" :=
  c9_error_atomicity _ none CaseError.Grep rfl

/-- C10.  `eta_secs` is total exactly under the unstated precondition
`currentStep ≤ targetDurationUnits * RATE`: below the bound it returns a
value, while a case whose step has run past the target step count makes the
unsigned subtraction `duration * RATE - step` underflow and `eta_secs` has
no result. -/
theorem c10_eta_secs_domain :
    (∀ (c : Case) (s : ℕ), c.step = some s → s ≤ c.duration * RATE →
        ∃ z : ℤ, c.eta_secs = some z) ∧
      Case.eta_secs { Case.new "x" 1 "l" with step := some 21 } = none := by
  constructor
  · intro c s hs hle
    rw [Case.eta_secs_some c s hs, if_neg (by omega)]
    exact ⟨_, rfl⟩
  · decide

/-- Witness for C10: a case inside the bound has an ETA; the concrete case
with `duration = 1` (20 target steps) and step `21` has none. -/
theorem c10_eta_secs_domain_witness :
    (∃ z : ℤ, Case.eta_secs
        { Case.new "x" 10 "l" with step := some 100, elapsed_per_step := ⟨2, 1⟩ }
      = some z) ∧
      Case.eta_secs { Case.new "x" 1 "l" with step := some 21 } = none :=
  ⟨c10_eta_secs_domain.1 _ 100 rfl (by decide), c10_eta_secs_domain.2⟩

/-! ## Lemmas about the matcher on token-structured input -/

theorem lit_append (p s : List Char) : lit p (p ++ s) = some s := by
  induction p with
  | nil => rfl
  | cons c t ih => simp [lit, ih]

theorem takeWhile_run (p : Char → Bool) (w r : List Char)
    (hw : ∀ c ∈ w, p c = true) (hr : ∀ c, r.head? = some c → p c = false) :
    (w ++ r).takeWhile p = w := by
  induction w with
  | nil =>
    cases r with
    | nil => rfl
    | cons c t =>
      rw [List.nil_append, List.takeWhile_cons_of_neg (by simp [hr c rfl])]
  | cons c t ih =>
    rw [List.cons_append, List.takeWhile_cons_of_pos (hw c (List.mem_cons_self c t)),
      ih fun x hx => hw x (List.mem_cons_of_mem c hx)]

theorem dropWhile_run (p : Char → Bool) (w r : List Char)
    (hw : ∀ c ∈ w, p c = true) (hr : ∀ c, r.head? = some c → p c = false) :
    (w ++ r).dropWhile p = r := by
  induction w with
  | nil =>
    cases r with
    | nil => rfl
    | cons c t =>
      rw [List.nil_append, List.dropWhile_cons_of_neg (by simp [hr c rfl])]
  | cons c t ih =>
    rw [List.cons_append, List.dropWhile_cons_of_pos (hw c (List.mem_cons_self c t)),
      ih fun x hx => hw x (List.mem_cons_of_mem c hx)]

theorem head_not_pred {p : Char → Bool} {a : Char} (r : List Char) (ha : p a = false) :
    ∀ c, (a :: r).head? = some c → p c = false := by
  intro c hc
  simp only [List.head?_cons, Option.some.injEq] at hc
  subst hc
  exact ha

theorem ws_false_of_digit {c : Char} (h : c.isDigit = true) : isWsChar c = false := by
  cases hw : isWsChar c
  · rfl
  · exfalso
    have hc := hw
    simp only [isWsChar, Bool.or_eq_true, decide_eq_true_eq] at hc
    rcases hc with ((((rfl | rfl) | rfl) | rfl) | rfl) | rfl <;> exact absurd h (by decide)

theorem sign_not_of_digit {c : Char} (h : c.isDigit = true) :
    ¬ ((c = '+' || c = '-') = true) := by
  have h1 : c ≠ '+' := by
    intro hc
    subst hc
    exact absurd h (by decide)
  have h2 : c ≠ '-' := by
    intro hc
    subst hc
    exact absurd h (by decide)
  simp [h1, h2]

theorem wsRun_append (w r : List Char) (hne : w ≠ [])
    (hw : ∀ c ∈ w, isWsChar c = true)
    (hr : ∀ c, r.head? = some c → isWsChar c = false) :
    wsRun (w ++ r) = some r := by
  cases w with
  | nil => exact absurd rfl hne
  | cons a t =>
    rw [List.cons_append]
    simp only [wsRun]
    rw [if_pos (hw a (List.mem_cons_self a t)),
      dropWhile_run isWsChar t r (fun x hx => hw x (List.mem_cons_of_mem a hx)) hr]

theorem digitRun_append (d r : List Char) (hne : d ≠ [])
    (hd : ∀ c ∈ d, c.isDigit = true)
    (hr : ∀ c, r.head? = some c → c.isDigit = false) :
    digitRun (d ++ r) = some (d, r) := by
  cases d with
  | nil => exact absurd rfl hne
  | cons a t =>
    rw [List.cons_append]
    simp only [digitRun]
    rw [if_pos (hd a (List.mem_cons_self a t)),
      takeWhile_run Char.isDigit t r (fun x hx => hd x (List.mem_cons_of_mem a hx)) hr,
      dropWhile_run Char.isDigit t r (fun x hx => hd x (List.mem_cons_of_mem a hx)) hr]

theorem headIs_self (ch : Char) (t : List Char) : headIs ch (ch :: t) = some t := by
  simp [headIs]

theorem signSplit_sign (sg rest : List Char)
    (hsg : sg = [] ∨ sg = ['+'] ∨ sg = ['-']) (hne : rest ≠ [])
    (hrest : ∀ c, rest.head? = some c → c.isDigit = true) :
    signSplit (sg ++ rest) = (sg, rest) := by
  rcases hsg with rfl | rfl | rfl
  · cases rest with
    | nil => exact absurd rfl hne
    | cons a t =>
      rw [List.nil_append]
      simp only [signSplit]
      rw [if_neg (sign_not_of_digit (hrest a rfl))]
  · rw [List.cons_append, List.nil_append]
    simp only [signSplit]
    rw [if_pos (by decide)]
  · rw [List.cons_append, List.nil_append]
    simp only [signSplit]
    rw [if_pos (by decide)]

/-- Well-formedness of a scientific-notation decomposition: the three digit
groups are non-empty digit runs and the sign token is empty, `+`, or `-`. -/
def SciParts.wf (p : SciParts) : Prop :=
  p.intPart ≠ [] ∧ (∀ c ∈ p.intPart, c.isDigit = true) ∧
  p.fracPart ≠ [] ∧ (∀ c ∈ p.fracPart, c.isDigit = true) ∧
  p.expPart ≠ [] ∧ (∀ c ∈ p.expPart, c.isDigit = true) ∧
  (p.signPart = [] ∨ p.signPart = ['+'] ∨ p.signPart = ['-'])

theorem sciSplit_text (p : SciParts) (hp : p.wf) (r : List Char)
    (hr : ∀ c, r.head? = some c → c.isDigit = false) :
    sciSplit (p.text ++ r) = some (p, r) := by
  obtain ⟨d1, d2, sg, d3⟩ := p
  obtain ⟨h1, hd1, h2, hd2, h3, hd3, hsg⟩ := hp
  obtain ⟨a3, t3, rfl⟩ := List.exists_cons_of_ne_nil h3
  have e1 : digitRun (d1 ++ '.' :: (d2 ++ 'e' :: (sg ++ (a3 :: t3 ++ r))))
      = some (d1, '.' :: (d2 ++ 'e' :: (sg ++ (a3 :: t3 ++ r)))) :=
    digitRun_append _ _ h1 hd1 (head_not_pred _ (by decide))
  have e2 : digitRun (d2 ++ 'e' :: (sg ++ (a3 :: t3 ++ r)))
      = some (d2, 'e' :: (sg ++ (a3 :: t3 ++ r))) :=
    digitRun_append _ _ h2 hd2 (head_not_pred _ (by decide))
  have e3 : signSplit (sg ++ (a3 :: t3 ++ r)) = (sg, a3 :: t3 ++ r) :=
    signSplit_sign _ _ hsg (by simp) fun c hc => by
      rw [List.cons_append, List.head?_cons, Option.some.injEq] at hc
      subst hc
      exact hd3 a3 (List.mem_cons_self a3 t3)
  have e4 : digitRun (a3 :: t3 ++ r) = some (a3 :: t3, r) :=
    digitRun_append _ _ (by simp) hd3 hr
  have htext : SciParts.text ⟨d1, d2, sg, a3 :: t3⟩ ++ r
      = d1 ++ '.' :: (d2 ++ 'e' :: (sg ++ (a3 :: t3 ++ r))) := by
    simp [SciParts.text]
  rw [htext]
  simp only [sciSplit, e1, Option.bind, headIs_self, e2, e3, e4]

theorem sciRun_text (p : SciParts) (hp : p.wf) (r : List Char)
    (hr : ∀ c, r.head? = some c → c.isDigit = false) :
    sciRun (p.text ++ r) = some (p.text, r) := by
  simp only [sciRun, sciSplit_text p hp r hr]

theorem parseNatStr_digits (ds : List Char) (h1 : ds ≠ [])
    (h2 : ∀ c ∈ ds, c.isDigit = true) :
    parseNatStr ds = some (natOfDigitRun ds) := by
  unfold parseNatStr
  rw [if_pos ⟨h1, List.all_eq_true.mpr h2⟩]

theorem parseRatSci_text (p : SciParts) (hp : p.wf) :
    parseRatSci p.text = some p.val := by
  have h := sciSplit_text p hp [] fun c hc => by simp at hc
  rw [List.append_nil] at h
  unfold parseRatSci
  rw [h]

theorem findCaptures_of_matchAt (s : List Char) (g : List Char × List Char)
    (h : matchAt s = some g) : findCaptures s = some g := by
  cases s with
  | nil => exact Option.noConfusion (h.symm.trans (show matchAt [] = none from rfl))
  | cons a t => simp only [findCaptures, h]

/-- C5 as amended.  Every log line made of the token `TimeStep`, a whitespace
run of any positive width, an integer, the literal `: Time` (with exactly one
space between `:` and `Time`), a whitespace run of any positive width, and a
scientific-notation float, matches the observation pattern, and the
extraction yields that integer as the step and that float's value as the
simulated time. -/
theorem c5_pattern_extracts (w1 w2 ds : List Char) (p : SciParts)
    (hw1 : w1 ≠ []) (hw1c : ∀ c ∈ w1, isWsChar c = true)
    (hw2 : w2 ≠ []) (hw2c : ∀ c ∈ w2, isWsChar c = true)
    (hds : ds ≠ []) (hdsc : ∀ c ∈ ds, c.isDigit = true)
    (hp : p.wf) :
    extractObs (timeStepTok ++ w1 ++ ds ++ colonTimeTok ++ w2 ++ p.text)
      = .ok (natOfDigitRun ds, p.val) := by
  obtain ⟨a, t, rfl⟩ := List.exists_cons_of_ne_nil hds
  have hip : p.intPart ≠ [] := hp.1
  obtain ⟨ai, ti, hpi⟩ := List.exists_cons_of_ne_nil hip
  have hm : matchAt (timeStepTok ++ (w1 ++ ((a :: t) ++ (colonTimeTok ++ (w2 ++ p.text)))))
      = some (a :: t, p.text) := by
    have f1 : wsRun (w1 ++ ((a :: t) ++ (colonTimeTok ++ (w2 ++ p.text))))
        = some ((a :: t) ++ (colonTimeTok ++ (w2 ++ p.text))) :=
      wsRun_append _ _ hw1 hw1c (by
        rw [List.cons_append]
        exact head_not_pred _ (ws_false_of_digit (hdsc a (List.mem_cons_self a t))))
    have f2 : digitRun ((a :: t) ++ (colonTimeTok ++ (w2 ++ p.text)))
        = some (a :: t, colonTimeTok ++ (w2 ++ p.text)) :=
      digitRun_append _ _ (by simp) hdsc (by
        rw [show colonTimeTok ++ (w2 ++ p.text) = ':' :: (' ' :: ('T' :: ('i' :: ('m' :: ('e' :: (w2 ++ p.text)))))) from by simp [colonTimeTok]]
        exact head_not_pred _ (by decide))
    have f3 : wsRun (w2 ++ p.text) = some p.text :=
      wsRun_append _ _ hw2 hw2c (by
        rw [show p.text = ai :: (ti ++ '.' :: (p.fracPart ++ 'e' :: (p.signPart ++ p.expPart))) from by
          simp [SciParts.text, hpi]]
        exact head_not_pred _ (ws_false_of_digit (by
          exact hp.2.1 ai (by rw [hpi]; exact List.mem_cons_self ai ti))))
    have f4 : sciRun p.text = some (p.text, []) := by
      have h := sciRun_text p hp [] fun c hc => by simp at hc
      rwa [List.append_nil] at h
    simp only [matchAt, lit_append, Option.bind, f1, f2, f3, f4, Option.map]
  have hfind := findCaptures_of_matchAt _ _ hm
  unfold extractObs
  rw [show timeStepTok ++ w1 ++ (a :: t) ++ colonTimeTok ++ w2 ++ p.text
      = timeStepTok ++ (w1 ++ ((a :: t) ++ (colonTimeTok ++ (w2 ++ p.text)))) from by simp,
    hfind]
  simp only [ofOpt, Except.bind, parseNatStr_digits (a :: t) (by simp) hdsc,
    parseRatSci_text p hp]

/-- Witness for C5 as amended: the specification's example line
`TimeStep   42: Time   1.2345e+02` extracts step `42` and simulated time
`123.45`. -/
theorem c5_pattern_extracts_witness :
    extractObs "TimeStep   42: Time   1.2345e+02".toList = .ok (42, 2469/20) := by
  have h := c5_pattern_extracts [' ', ' ', ' '] [' ', ' ', ' '] ['4', '2']
    ⟨['1'], ['2', '3', '4', '5'], ['+'], ['0', '2']⟩
    (by decide) (by decide) (by decide) (by decide) (by decide) (by decide)
    ⟨by decide, by decide, by decide, by decide, by decide, by decide, by decide⟩
  rw [show "TimeStep   42: Time   1.2345e+02".toList
      = timeStepTok ++ [' ', ' ', ' '] ++ ['4', '2'] ++ colonTimeTok ++ [' ', ' ', ' ']
        ++ SciParts.text ⟨['1'], ['2', '3', '4', '5'], ['+'], ['0', '2']⟩ from by decide,
    h]
  decide

/-- C5 counterexample.  The observation pattern does not tolerate a widened
whitespace run between `:` and `Time`: with two spaces there
(`TimeStep 42:  Time 1.2345e+02`) the refresh fails with
`CaseError::Regex` instead of extracting step `42`. -/
theorem c5_counterexample :
    (Case.new "a" 900 "l").update (some "TimeStep 42:  Time 1.2345e+02".toList)
      = (Case.new "a" 900 "l", Outcome.err CaseError.Regex) ∧
      Outcome.err CaseError.Regex ≠ Outcome.ok := by
  decide

/-- C1.  Feeding samples `s_1..s_n` one at a time through
`ElapsedPerStep::update` leaves the stored mean equal to the plain arithmetic
mean `(s_1+...+s_n)/n`, and feeding any permutation of the samples yields the
same mean (order independence of the equal-weighted average). -/
theorem c1_update_mean (l l' : List ℚ) (h : l.Perm l') :
    (ElapsedPerStep.run l).value = l.sum / l.length ∧
      (ElapsedPerStep.run l').value = (ElapsedPerStep.run l).value := by
  refine ⟨ElapsedPerStep.run_value l, ?_⟩
  rw [ElapsedPerStep.run_value l, ElapsedPerStep.run_value l', h.sum_eq, h.length_eq]

/-- Witness for C1 at the concrete samples `[1, 2, 3]` and the permutation
`[3, 1, 2]`: both runs end with mean `2 = (1+2+3)/3`. -/
theorem c1_update_mean_witness :
    (ElapsedPerStep.run [1, 2, 3]).value = ([1, 2, 3] : List ℚ).sum / ([1, 2, 3] : List ℚ).length ∧
      (ElapsedPerStep.run [3, 1, 2]).value = (ElapsedPerStep.run [1, 2, 3]).value :=
  c1_update_mean [1, 2, 3] [3, 1, 2] (by decide)

/-- C8.  Every `ElapsedPerStep` reachable from `new` by a finite sequence of
`update` calls satisfies `sample = 0 → value = 0`: the mean is `0` while no
sample has been folded in. -/
theorem c8_zero_sample_invariant (l : List ℚ)
    (h : (ElapsedPerStep.run l).sample = 0) :
    (ElapsedPerStep.run l).value = 0 := by
  rcases l with _ | ⟨v, t⟩
  · simp [ElapsedPerStep.run, ElapsedPerStep.new]
  · rw [ElapsedPerStep.run_sample] at h
    simp at h

/-- Witness for C8: the empty update sequence has sample count `0` and the
value reported on it is `0`. -/
theorem c8_zero_sample_invariant_witness :
    (ElapsedPerStep.run []).sample = 0 ∧ (ElapsedPerStep.run []).value = 0 :=
  ⟨by decide, c8_zero_sample_invariant [] (by decide)⟩

end CfdStatus
